import Mathlib

/-!
Verification of the claim-generate-validate-persist batch job (src/gen.py)
against its natural-language specification.

Python strings are embedded as `List Char` (named `Str` below); Python `None`
for a nullable value is `Option.none`; machine I/O (database connection, the
generation backend, `asyncio.sleep`, `print`) is modelled by explicit inputs
(a record list, an attempt oracle) and an explicit event trace.
-/

/-- Python strings are modelled as lists of characters. -/
abbrev Str := List Char

/-- Whitespace predicate used by the embedding of Python `str.strip()`. -/
def ws (c : Char) : Bool := c.isWhitespace

/-- Drop leading whitespace (the left half of Python `str.strip()`). -/
def trimL (l : Str) : Str := l.dropWhile ws

/-- Drop trailing whitespace (the right half of Python `str.strip()`). -/
def trimR : Str → Str
  | [] => []
  | x :: xs =>
    match trimR xs with
    | [] => if ws x then [] else [x]
    | y :: ys => x :: y :: ys

/-- Embedding of Python `str.strip()`: drop leading and trailing whitespace. -/
def pyStrip (l : Str) : Str := trimR (trimL l)

/-- Embedding of Python `s.split(c)` for a one-character separator:
split at every occurrence of the separator, keeping empty segments. -/
def splitOnChar (c : Char) : Str → List Str
  | [] => [[]]
  | x :: xs =>
    if x = c then [] :: splitOnChar c xs
    else
      match splitOnChar c xs with
      | [] => [[x]]
      | y :: ys => (x :: y) :: ys

/-- Apply a function to the first element of a list, if any. -/
def modHead (f : Str → Str) : List Str → List Str
  | [] => []
  | x :: xs => f x :: xs

/-- Apply a function to the last element of a list, if any. -/
def modLast (f : Str → Str) : List Str → List Str
  | [] => []
  | [x] => [f x]
  | x :: y :: ys => x :: modLast f (y :: ys)

/-- Embedding of Python `needle in hay` for strings (substring test). -/
def strIn (needle : Str) : Str → Bool
  | [] => needle.isEmpty
  | x :: xs => needle.isPrefixOf (x :: xs) || strIn needle xs

/-- Embedding of Python `str.find(c)` for a single character: index of the
leftmost occurrence (`none` embeds Python's `-1`). -/
def pyFind (c : Char) : Str → Option Nat
  | [] => none
  | x :: xs => if x = c then some 0 else (pyFind c xs).map (· + 1)

/-- Embedding of Python `str.rfind(c)` for a single character: index of the
rightmost occurrence (`none` embeds Python's `-1`). -/
def pyRfind (c : Char) : Str → Option Nat
  | [] => none
  | x :: xs =>
    match pyRfind c xs with
    | some i => some (i + 1)
    | none => if x = c then some 0 else none

/-- The opening-brace character (written with an escape throughout). -/
def obr : Char := '\x7b'

/-- The closing-brace character (written with an escape throughout). -/
def cbr : Char := '\x7d'

/-- Marker of a fenced json block, `gen.py` line 180. -/
def fenceJson : Str := "```json".toList

/-- Marker of a plain code fence, `gen.py` lines 182 and 184. -/
def fence : Str := "```".toList

/-- Shared first phase of cleaning (`gen.py` lines 177-185): strip the text,
then peel leading/trailing markdown code-fence markers. -/
def stripFences (text : Str) : Str :=
  let t := pyStrip text
  let t := if fenceJson.isPrefixOf t then t.drop 7 else t
  let t := if fence.isPrefixOf t then t.drop 3 else t
  let t := if fence.isSuffixOf t then t.take (t.length - 3) else t
  t

/-- Embedding of `clean_json_response` (`gen.py` lines 175-196): strip and
remove code fences, then slice `text[start_index : end_index + 1]` when
`text.find` of the opening brace and `text.rfind` of the closing brace both
succeed with `end_index > start_index`, and finally strip again. -/
def clean_json_response (text : Str) : Str :=
  let t := stripFences text
  let t :=
    match pyFind obr t, pyRfind cbr t with
    | some s, some e => if s < e then (t.drop s).take (e + 1 - s) else t
    | _, _ => t
  pyStrip t

/-- Modelled from the spec's words for `clean` (spec section 4.3): after fence
removal, extract the substring between the first opening brace and the last
closing brace (inclusive) when both exist and are correctly ordered, and
otherwise return the trimmed input unchanged.  First/last occurrences and the
substring are phrased with library primitives, independently of the
`find`/`rfind`/slice embedding used by `clean_json_response`. -/
def cleanSpec (text : Str) : Str :=
  let t := stripFences text
  match t.findIdx? (· = obr), (t.reverse.findIdx? (· = cbr)).map (t.length - 1 - ·) with
  | some i, some j => if i < j then (t.take (j + 1)).drop i else pyStrip t
  | _, _ => pyStrip t

theorem pyFind_eq_findIdx (c : Char) (l : Str) : pyFind c l = l.findIdx? (· = c) := by
  induction l with
  | nil => rfl
  | cons x xs ih =>
    by_cases h : x = c
    · simp [pyFind, h, List.findIdx?_cons]
    · simp [pyFind, h, List.findIdx?_cons, List.findIdx?_succ, ih]

theorem pyFind_append (c : Char) (a b : Str) :
    pyFind c (a ++ b) =
      match pyFind c a with
      | some i => some i
      | none => (pyFind c b).map (· + a.length) := by
  induction a with
  | nil => cases hb : pyFind c b <;> simp [pyFind, hb]
  | cons x xs ih =>
    by_cases h : x = c
    · simp [pyFind, h]
    · cases hxs : pyFind c xs with
      | some i => simp [pyFind, h, ih, hxs]
      | none =>
        cases hb : pyFind c b with
        | none => simp [pyFind, h, ih, hxs, hb]
        | some j => simp [pyFind, h, ih, hxs, hb, Nat.add_assoc]

theorem pyFind_lt_length (c : Char) (l : Str) (i : Nat) (h : pyFind c l = some i) :
    i < l.length := by
  induction l generalizing i with
  | nil => cases h
  | cons x xs ih =>
    by_cases hx : x = c
    · simp [pyFind, hx] at h; subst h; simp
    · simp [pyFind, hx] at h
      obtain ⟨j, hj, rfl⟩ := h
      have := ih j hj
      simp; omega

theorem pyFind_getElem (c : Char) (l : Str) (i : Nat) (h : pyFind c l = some i) :
    l[i]? = some c := by
  induction l generalizing i with
  | nil => cases h
  | cons x xs ih =>
    by_cases hx : x = c
    · simp [pyFind, hx] at h; subst h; simp [hx]
    · simp [pyFind, hx] at h
      obtain ⟨j, hj, rfl⟩ := h
      simpa using ih j hj

theorem pyRfind_eq_reverse (c : Char) (l : Str) :
    pyRfind c l = (pyFind c l.reverse).map (fun j => l.length - 1 - j) := by
  induction l with
  | nil => rfl
  | cons x xs ih =>
    have happ := pyFind_append c xs.reverse [x]
    cases hxs : pyRfind c xs with
    | some i =>
      rw [ih] at hxs
      cases hrev : pyFind c xs.reverse with
      | none => simp [hrev] at hxs
      | some j =>
        have hb := pyFind_lt_length c xs.reverse j hrev
        simp [hrev] at hxs
        simp only [List.reverse_cons, happ, hrev]
        simp at hb
        simp [pyRfind, ih, hrev]
        omega
    | none =>
      rw [ih] at hxs
      cases hrev : pyFind c xs.reverse with
      | some j => simp [hrev] at hxs
      | none =>
        by_cases hx : x = c
        · simp only [List.reverse_cons, happ, hrev]
          simp [pyRfind, ih, hrev, hx, pyFind]
        · simp only [List.reverse_cons, happ, hrev]
          simp [pyRfind, ih, hrev, hx, pyFind]

theorem pyRfind_spec (c : Char) (l : Str) :
    pyRfind c l = (l.reverse.findIdx? (· = c)).map (fun j => l.length - 1 - j) := by
  rw [pyRfind_eq_reverse, pyFind_eq_findIdx]

theorem pyRfind_lt_length (c : Char) (l : Str) (e : Nat) (h : pyRfind c l = some e) :
    e < l.length := by
  rw [pyRfind_eq_reverse] at h
  cases hrev : pyFind c l.reverse with
  | none => simp [hrev] at h
  | some j =>
    have hb := pyFind_lt_length c l.reverse j hrev
    rw [List.length_reverse] at hb
    simp [hrev] at h
    omega

theorem pyRfind_getElem (c : Char) (l : Str) (e : Nat) (h : pyRfind c l = some e) :
    l[e]? = some c := by
  rw [pyRfind_eq_reverse] at h
  cases hrev : pyFind c l.reverse with
  | none => simp [hrev] at h
  | some j =>
    have hb := pyFind_lt_length c l.reverse j hrev
    have hg := pyFind_getElem c l.reverse j hrev
    simp at hb
    simp [hrev] at h
    rw [List.getElem?_reverse hb] at hg
    rw [h] at hg
    exact hg

theorem trimL_eq_self (l : Str) (a : Char) (hh : l.head? = some a) (ha : ws a = false) :
    trimL l = l := by
  cases l with
  | nil => simp at hh
  | cons x xs =>
    simp at hh
    subst hh
    simp [trimL, List.dropWhile_cons, ha]

theorem trimR_cons (x : Char) (xs : Str) :
    trimR (x :: xs) =
      match trimR xs with
      | [] => if ws x then [] else [x]
      | y :: ys => x :: y :: ys := rfl

theorem trimR_eq_self : ∀ (l : Str) (b : Char), l.getLast? = some b → ws b = false →
    trimR l = l := by
  intro l
  induction l with
  | nil => intro b hl _; simp at hl
  | cons x xs ih =>
    intro b hl hb
    cases xs with
    | nil =>
      simp at hl
      subst hl
      simp [trimR, hb]
    | cons y ys =>
      rw [List.getLast?_cons_cons] at hl
      have h2 := ih b hl hb
      rw [trimR_cons, h2]

theorem pyStrip_eq_self (l : Str) (a b : Char) (hh : l.head? = some a) (ha : ws a = false)
    (hl : l.getLast? = some b) (hb : ws b = false) : pyStrip l = l := by
  unfold pyStrip
  rw [trimL_eq_self l a hh ha, trimR_eq_self l b hl hb]

/-- The claim-relevant part of C3: the source `clean_json_response` agrees with
the clean operation as worded by the spec, on every input. -/
theorem clean_eq_cleanSpec (text : Str) : clean_json_response text = cleanSpec text := by
  simp only [clean_json_response, cleanSpec]
  rw [← pyFind_eq_findIdx, ← pyRfind_spec]
  cases hf : pyFind obr (stripFences text) with
  | none => rfl
  | some s =>
    cases hr : pyRfind cbr (stripFences text) with
    | none => rfl
    | some e =>
      simp only
      by_cases hse : s < e
      · simp only [hse, if_true]
        rw [List.drop_take]
        have hel := pyRfind_lt_length cbr (stripFences text) e hr
        have hslen : (((stripFences text).drop s).take (e + 1 - s)).length = e + 1 - s := by
          simp [List.length_take, List.length_drop]
          omega
        have hhead : (((stripFences text).drop s).take (e + 1 - s)).head? = some obr := by
          rw [List.head?_take]
          have hne : ¬(e + 1 - s = 0) := by omega
          simp only [hne, if_false]
          rw [List.head?_drop]
          exact pyFind_getElem obr (stripFences text) s hf
        have hlast : (((stripFences text).drop s).take (e + 1 - s)).getLast? = some cbr := by
          rw [List.getLast?_eq_getElem?, hslen]
          have h1 : e + 1 - s - 1 = e - s := by omega
          rw [h1, List.getElem?_take]
          have h2 : e - s < e + 1 - s := by omega
          simp only [h2, if_true]
          rw [List.getElem?_drop]
          have h3 : s + (e - s) = e := by omega
          rw [h3]
          exact pyRfind_getElem cbr (stripFences text) e hr
        exact pyStrip_eq_self _ obr cbr hhead (by decide) hlast (by decide)
      · simp only [hse, if_false]

/-- Instruction-template fragment checked at `gen.py` line 268. -/
def echoMarker : Str := "You are an Elite AI".toList

/-- Required result field, `gen.py` line 276. -/
def part1Key : Str := "part1_prompt".toList

/-- Required result field, `gen.py` line 276. -/
def part2Key : Str := "part2_prompt".toList

/-- Outcome of validating one raw model response (the rejection taxonomy of
spec section 4.3; `valid` carries the cleaned payload kept by the code). -/
inductive Validation where
  | echoed
  | malformed
  | missingFields
  | valid (cleaned : Str)
deriving DecidableEq

/-- Embedding of the per-attempt validation block of `process_records_with_api`
(`gen.py` lines 264-290).  `json.loads` is an external library call; it is
modelled by the oracle `parse`, which returns the key list of the parsed JSON
object, or `none` for a `JSONDecodeError`.  The echo check (line 268) reads the
raw `response_text`; the JSON checks (lines 275-276) read `cleaned_response`. -/
def attemptValidate (parse : Str → Option (List Str)) (raw : Str) : Validation :=
  let cleaned := clean_json_response raw
  if strIn echoMarker raw then .echoed
  else
    match parse cleaned with
    | none => .malformed
    | some keys =>
      if keys.contains part1Key && keys.contains part2Key then .valid cleaned
      else .missingFields

/-- Modelled from the spec's words for `validate(cleaned_text, original_raw_text)`
(spec section 4.3): rejection reasons checked in order `EchoedInstructions`
(against the original raw text) before `MalformedJson` (cleaned text fails to
parse) before `MissingFields` (parsed object lacks a required field). -/
def validateSpec (parse : Str → Option (List Str)) (cleaned raw : Str) : Validation :=
  if strIn echoMarker raw then .echoed
  else
    match parse cleaned with
    | none => .malformed
    | some keys =>
      if keys.contains part1Key && keys.contains part2Key then .valid cleaned
      else .missingFields

/-- C3: for every raw model response, `clean` removes leading/trailing code
fences and extracts the substring between the first opening brace and the last
closing brace inclusive when both exist in order, otherwise returning the
trimmed input unchanged; and the attempt validation of the source equals the
spec's `validate` (which rejects as EchoedInstructions — checked on the
original raw text — before MalformedJson before MissingFields, and accepts
otherwise) applied to the spec's `clean` of that raw text. -/
theorem claim_C3_clean_validate :
    (∀ text, clean_json_response text = cleanSpec text) ∧
    (∀ parse raw, attemptValidate parse raw = validateSpec parse (cleanSpec raw) raw) := by
  refine ⟨clean_eq_cleanSpec, ?_⟩
  intro parse raw
  simp only [attemptValidate, validateSpec]
  rw [clean_eq_cleanSpec]

/-- Text of `VEO3_PROMPT_TEMPLATE` before the `title` placeholder
(`gen.py` lines 24-27). -/
def veo3Head : String :=
  "You are an Elite AI Commercial Director.\n" ++
  "Your task is to generate a 2-part video prompt must be **22 to 28 words** per part to JSON Only for Google Veo 3 based on the raw product title. DO NOT PRINT TO CHAT PROCESSING LOGIC FOR EVERY STEPS.\n" ++
  "\n" ++
  "**Input Product Title:** \""

/-- Text of `VEO3_PROMPT_TEMPLATE` after the `title` placeholder
(`gen.py` lines 27-67), with the doubled braces of the output-format block
unescaped as `str.format` does. -/
def veo3Tail : String :=
  "\"\n" ++
  "**START INTERNAL LOGIC (APPLY SILENTLY - DON\x27T PRINT TO CHAT):**\n" ++
  "**STEP 0: CREATE \"SPOKEN SHORT NAME\" (INTERNAL PROCESSING)**\n" ++
  "1.  Analyze the long title.\n" ++
  "2.  Extract ONLY the **Category + Brand/Key Feature** to create a natural \"Short Name\" (Max 3-5 words).\n" ++
  "    - Example Input: \"Quần Bò Jean Nữ Ống Loe đứng CANA Jeans Cạp Cao MS21\"\n" ++
  "    - Example Output Short Name: **\"Quần Jean Loe CANA\"**\n" ++
  "\n" ++
  "**STEP 1: TIMING & SCRIPT RULES (UPDATED)**\n" ++
  "- **Duration:** Exactly 8 seconds per part.\n" ++
  "- **Word Count:** Vietnamese script must be **22 to 28 words** per part.\n" ++
  "- **Pacing:** Very fast, high-density energetic delivery (Livestream style).\n" ++
  "- **Naming Rule:** ONLY use the **Short Name** generated in Step 0.\n" ++
  "- **Content:** Fill the time with benefits, do not leave silence.\n" ++
  "\n" ++
  "**STEP 2: VISUAL LOGIC**\n" ++
  "- **Category Awareness:** Apply correct camera angles (Footwear=Low angle, Fashion=Medium shot, Cosmetics=Close up).\n" ++
  "- **Visual Fidelity:** Describe the product using details from the full title (color, material), ensuring 4K photorealism.\n" ++
  "\n" ++
  "**PART 1 (0s-8s): The Hook & Pain Point**\n" ++
  "- **Visual:** Dramatic reveal, problem visualization, or high-end product showcase.\n" ++
  "- **Script:**\n" ++
  "  1. Start INSTANTLY with a question or strong statement.\n" ++
  "  2. Mention the [Short Name].\n" ++
  "  3. Pack the script with adjectives and energetic filler words (\"cực đỉnh\", \"siêu mê\", \"ngay đi\").\n" ++
  "- **Example Structure:** \"Bà nào đùi to chân ngắn mà chưa biết đến em [Short Name] này là tiếc hùi hụi nha! Thiết kế cạp cao hack dáng siêu đỉnh, mặc vào là chân dài miên man, che khuyết điểm cực tốt luôn ạ.\"\n" ++
  "\n" ++
  "**PART 2 (8s-16s): Feature & CTA**\n" ++
  "- **Visual:** Product in use/motion showing results. Dynamic movement.\n" ++
  "- **Script:**\n" ++
  "  1. Focus on the best feature (material, durability, effect).\n" ++
  "  2. End with a breathless, urgent CTA.\n" ++
  "- **Example Structure:** \"Chất vải co giãn bốn chiều, bao giặt máy không lo bai xù. Số lượng trong kho còn cực ít, các bác nhanh tay bấm ngay vào giỏ hàng góc trái chốt đơn liền kẻo hết size đẹp nhé!\"\n" ++
  "**END INTERNAL LOGIC (APPLY SILENTLY - DON\x27T PRINT TO CHAT):**\n" ++
  "\n" ++
  "**Output Format (JSON Only):**\n" ++
  "\x7b\n" ++
  "  \"part1_prompt\": \"cinematic 4k shot, [Camera Logic], [Detailed Visual of Product using Full Title details], professional lighting --text-input \\\"[Vietnamese Script Part 1 (~35 words)]\\\"\",\n" ++
  "  \"part2_prompt\": \"cinematic 4k shot, [Camera Logic], [Detailed Visual of Product in action], aesthetic style --text-input \\\"[Vietnamese Script Part 2 (~35 words)]\\\"\"\n" ++
  "\x7d\n"

/-- Result of `VEO3_PROMPT_TEMPLATE.format(title=...)`. -/
def veo3Template (title : Str) : Str := veo3Head.toList ++ title ++ veo3Tail.toList

/-- One claimed record as returned by the store: `id`, `title`, `image_data`
(the latter two nullable in the database). -/
structure Rec where
  id : Nat
  title : Option Str
  image_data : Option Str
deriving DecidableEq

/-- What Python prints for `None`; `str.format` inserts it for a `None` title. -/
def noneStr : Str := "None".toList

/-- Embedding of `generate_prompt_text` (`gen.py` lines 166-172).  For a record
from the claim query the `title` key is always present, so `str.format` cannot
raise and the function always returns a prompt; a `None` title is rendered as
the string `None`, not an error. -/
def generate_prompt_text (r : Rec) : Option Str :=
  match r.title with
  | some t => some (veo3Template t)
  | none => some (veo3Template noneStr)

/-- Python truthiness of an optional string (`if not prompt_text`). -/
def pyTruthy (s : Option Str) : Bool :=
  match s with
  | none => false
  | some l => !l.isEmpty

/-- Outcome of one `client.generate_content` call, as seen by the caller:
either an exception with message text, or a response text. -/
inductive ApiResult where
  | raised (err : Str)
  | ok (text : Str)

/-- Observable actions of the coordinator: a generation call for record index
`rid` (0-based) at attempt `attempt` (0-based), an `asyncio.sleep` of the given
number of seconds, or an `update_record` persist call. -/
inductive Ev where
  | call (rid attempt : Nat)
  | sleep (secs : Nat)
  | persist (id : Nat) (payload : Str)
deriving DecidableEq

/-- Result of the retry loop (`gen.py` lines 239-305) for one record. -/
inductive RetryRes where
  | valid (cleaned : Str)
  | exhausted
  | raisedFinal (err : Str)
deriving DecidableEq

/-- Embedding of the retry loop (`gen.py` lines 239-305), `fuel` attempts
remaining and `k` the current 0-based attempt index (entered with `fuel = 4`,
`k = 0`).  Attempts after the first are preceded by `asyncio.sleep(3)`
(line 242).  An API exception retries unless it happened on the final attempt,
in which case it is re-raised (lines 302-305); a validation rejection always
just consumes the attempt (lines 271, 285, 290); exhausting the loop without a
valid response leaves `valid_response_received` false. -/
def retryAux (parse : Str → Option (List Str)) (api : Nat → ApiResult) (rid : Nat) :
    Nat → Nat → List Ev × RetryRes
  | 0, _ => ([], .exhausted)
  | fuel + 1, k =>
    let pre : List Ev := if k = 0 then [] else [.sleep 3]
    match api k with
    | .raised e =>
      if fuel = 0 then (pre ++ [.call rid k], .raisedFinal e)
      else
        let r := retryAux parse api rid fuel (k + 1)
        (pre ++ .call rid k :: r.1, r.2)
    | .ok raw =>
      match attemptValidate parse raw with
      | .valid cleaned => (pre ++ [.call rid k], .valid cleaned)
      | _ =>
        let r := retryAux parse api rid fuel (k + 1)
        (pre ++ .call rid k :: r.1, r.2)

/-- Per-record outcome at the bottom of the loop body. -/
inductive RecRes where
  | crashed (msg : Str)
  | skipped
  | exhausted
  | caughtApiError (err : Str)
  | persisted (payload : Str)
deriving DecidableEq

/-- Message of the uncaught `TypeError` raised by `len(record['title'])` at
`gen.py` line 223 when the title is `None`. -/
def noneLenMsg : Str := "object of type \x27NoneType\x27 has no len()".toList

/-- Embedding of one iteration of the record loop of `process_records_with_api`
(`gen.py` lines 219-318), for the record at 0-based index `i`.  A `None` title
raises an uncaught `TypeError` in the logging expression at line 223, before
rendering and outside the per-record `try`.  A falsy prompt skips the record
(lines 228-229).  Otherwise the retry loop runs; exhaustion skips the record
(lines 307-310); a valid response is persisted via `update_record` (line 315,
which catches its own database errors and never raises); an exception
re-raised on the final attempt is caught by the per-record handler
(lines 317-318). -/
def processRecord (parse : Str → Option (List Str)) (api : Nat → Nat → ApiResult)
    (i : Nat) (r : Rec) : List Ev × RecRes :=
  match r.title with
  | none => ([], .crashed noneLenMsg)
  | some _ =>
    let prompt := generate_prompt_text r
    if !pyTruthy prompt then ([], .skipped)
    else
      let res := retryAux parse (api i) i 4 0
      match res.2 with
      | .exhausted => (res.1, .exhausted)
      | .raisedFinal e => (res.1, .caughtApiError e)
      | .valid cleaned => (res.1 ++ [.persist r.id cleaned], .persisted cleaned)

/-- Termination status of one batch run. -/
inductive BatchOut where
  | finished
  | raised (msg : Str)
deriving DecidableEq

/-- Embedding of the record loop of `process_records_with_api`
(`gen.py` lines 219-323) over the claimed records, `n` the length of the
(possibly truncated) batch and `i` the 0-based index of the current record.
The `continue` statements at lines 229 and 310 jump to the next record
without reaching the pacing sleep at lines 320-323; the pacing sleep runs
only when the loop body falls through its `try`/`except` (successful persist,
or a record-level exception caught at line 317) and `idx < len(records)`. -/
def runLoop (parse : Str → Option (List Str)) (api : Nat → Nat → ApiResult) (n : Nat) :
    Nat → List Rec → List Ev × BatchOut
  | _, [] => ([], .finished)
  | i, r :: rest =>
    let p := processRecord parse api i r
    match p.2 with
    | .crashed m => (p.1, .raised m)
    | .skipped =>
      let t := runLoop parse api n (i + 1) rest
      (p.1 ++ t.1, t.2)
    | .exhausted =>
      let t := runLoop parse api n (i + 1) rest
      (p.1 ++ t.1, t.2)
    | _ =>
      let pace : List Ev := if i + 1 < n then [.sleep 15] else []
      let t := runLoop parse api n (i + 1) rest
      (p.1 ++ pace ++ t.1, t.2)

/-- Embedding of the batch truncation (`gen.py` lines 215-216): `records` is
reassigned to `records[:limit_records]` only when `limit_records` is truthy,
so `None` and `0` both leave the batch untouched. -/
def truncRecords (records : List Rec) (limit : Option Nat) : List Rec :=
  match limit with
  | none => records
  | some k => if k = 0 then records else records.take k

/-- Embedding of `process_records_with_api` (`gen.py` lines 199-323), with the
already-fetched records as input (the fetch itself is modelled separately as
`fetch_pending_records`): empty batch returns immediately (lines 208-210),
otherwise the batch is truncated (lines 215-216) and iterated. -/
def process_records_with_api (parse : Str → Option (List Str))
    (api : Nat → Nat → ApiResult) (records : List Rec) (limit : Option Nat) :
    List Ev × BatchOut :=
  if records.isEmpty then ([], .finished)
  else
    let recs := truncRecords records limit
    runLoop parse api recs.length 0 recs

/-- Recognizer for generation-call events. -/
def isCallEv : Ev → Bool
  | .call _ _ => true
  | _ => false

/-- Recognizer for persist events. -/
def isPersistEv : Ev → Bool
  | .persist _ _ => true
  | _ => false

/-- An attempt outcome that reached the validator and was rejected. -/
def rejectedApi (parse : Str → Option (List Str)) (a : ApiResult) : Prop :=
  ∃ raw, a = .ok raw ∧ ∀ c, attemptValidate parse raw ≠ .valid c

/-- An attempt outcome that did not produce a validated response: either the
call raised, or the validator rejected the response. -/
def failedApi (parse : Str → Option (List Str)) (a : ApiResult) : Prop :=
  (∃ e, a = .raised e) ∨ rejectedApi parse a

/-- The inter-attempt delay events preceding attempt `k`. -/
def preEvs (k : Nat) : List Ev := if k = 0 then [] else [.sleep 3]

theorem retryAux_raised_cont (parse : Str → Option (List Str)) (api : Nat → ApiResult)
    (rid f k : Nat) (e : Str) (hk : api k = .raised e) (hf : f ≠ 0) :
    retryAux parse api rid (f + 1) k =
      (preEvs k ++ .call rid k :: (retryAux parse api rid f (k + 1)).1,
       (retryAux parse api rid f (k + 1)).2) := by
  simp only [retryAux, hk, hf, preEvs, if_false]

theorem retryAux_raised_last (parse : Str → Option (List Str)) (api : Nat → ApiResult)
    (rid k : Nat) (e : Str) (hk : api k = .raised e) :
    retryAux parse api rid 1 k = (preEvs k ++ [.call rid k], .raisedFinal e) := by
  simp [retryAux, hk, preEvs]

theorem retryAux_ok_valid (parse : Str → Option (List Str)) (api : Nat → ApiResult)
    (rid f k : Nat) (raw cleaned : Str) (hk : api k = .ok raw)
    (hv : attemptValidate parse raw = .valid cleaned) :
    retryAux parse api rid (f + 1) k = (preEvs k ++ [.call rid k], .valid cleaned) := by
  simp only [retryAux, hk, hv, preEvs]

theorem retryAux_ok_reject (parse : Str → Option (List Str)) (api : Nat → ApiResult)
    (rid f k : Nat) (raw : Str) (hk : api k = .ok raw)
    (hv : ∀ c, attemptValidate parse raw ≠ .valid c) :
    retryAux parse api rid (f + 1) k =
      (preEvs k ++ .call rid k :: (retryAux parse api rid f (k + 1)).1,
       (retryAux parse api rid f (k + 1)).2) := by
  rcases hval : attemptValidate parse raw with _ | _ | _ | c
  · simp only [retryAux, hk, hval, preEvs]
  · simp only [retryAux, hk, hval, preEvs]
  · simp only [retryAux, hk, hval, preEvs]
  · exact absurd hval (hv c)

theorem retryAux_events (parse : Str → Option (List Str)) (api : Nat → ApiResult)
    (rid : Nat) : ∀ fuel k e, e ∈ (retryAux parse api rid fuel k).1 →
    (∃ a, e = .call rid a) ∨ e = .sleep 3 := by
  intro fuel
  induction fuel with
  | zero => intro k e he; simp [retryAux] at he
  | succ f ih =>
    intro k e he
    rcases hk : api k with e0 | raw
    · by_cases hf : f = 0
      · subst hf
        rw [retryAux_raised_last parse api rid k e0 hk] at he
        by_cases hk0 : k = 0
        · subst hk0
          simp [preEvs] at he
          exact Or.inl ⟨0, he⟩
        · simp [preEvs, hk0] at he
          rcases he with he | he
          · exact Or.inr he
          · exact Or.inl ⟨k, he⟩
      · rw [retryAux_raised_cont parse api rid f k e0 hk hf] at he
        by_cases hk0 : k = 0
        · subst hk0
          simp [preEvs] at he
          rcases he with he | he
          · exact Or.inl ⟨0, he⟩
          · exact ih 1 e he
        · simp [preEvs, hk0] at he
          rcases he with he | he | he
          · exact Or.inr he
          · exact Or.inl ⟨k, he⟩
          · exact ih (k + 1) e he
    · by_cases hval : ∃ c, attemptValidate parse raw = .valid c
      · obtain ⟨c, hc⟩ := hval
        rw [retryAux_ok_valid parse api rid f k raw c hk hc] at he
        by_cases hk0 : k = 0
        · subst hk0
          simp [preEvs] at he
          exact Or.inl ⟨0, he⟩
        · simp [preEvs, hk0] at he
          rcases he with he | he
          · exact Or.inr he
          · exact Or.inl ⟨k, he⟩
      · push_neg at hval
        rw [retryAux_ok_reject parse api rid f k raw hk hval] at he
        by_cases hk0 : k = 0
        · subst hk0
          simp [preEvs] at he
          rcases he with he | he
          · exact Or.inl ⟨0, he⟩
          · exact ih 1 e he
        · simp [preEvs, hk0] at he
          rcases he with he | he | he
          · exact Or.inr he
          · exact Or.inl ⟨k, he⟩
          · exact ih (k + 1) e he

theorem countP_preEvs_call (k : Nat) : (preEvs k).countP isCallEv = 0 := by
  by_cases hk0 : k = 0 <;> simp [preEvs, hk0, isCallEv]

theorem retryAux_all_rejected (parse : Str → Option (List Str)) (api : Nat → ApiResult)
    (rid : Nat) : ∀ fuel k, (∀ j, j < fuel → rejectedApi parse (api (k + j))) →
    (retryAux parse api rid fuel k).2 = .exhausted ∧
    (retryAux parse api rid fuel k).1.countP isCallEv = fuel := by
  intro fuel
  induction fuel with
  | zero => intro k _; exact ⟨rfl, rfl⟩
  | succ f ih =>
    intro k h
    obtain ⟨raw, hk, hv⟩ := h 0 (by omega)
    rw [Nat.add_zero] at hk
    have heq := retryAux_ok_reject parse api rid f k raw hk hv
    have ihs := ih (k + 1) (fun j hj => by
      have h2 := h (j + 1) (by omega)
      rwa [show k + (j + 1) = k + 1 + j by omega] at h2)
    rw [heq]
    refine ⟨ihs.1, ?_⟩
    simp [List.countP_append, List.countP_cons, isCallEv, countP_preEvs_call, ihs.2]

theorem retryAux_final_raise (parse : Str → Option (List Str)) (api : Nat → ApiResult)
    (rid : Nat) : ∀ fuel k e, fuel ≠ 0 →
      (∀ j, j + 1 < fuel → failedApi parse (api (k + j))) →
      api (k + fuel - 1) = .raised e →
    (retryAux parse api rid fuel k).2 = .raisedFinal e ∧
    (retryAux parse api rid fuel k).1.countP isCallEv = fuel := by
  intro fuel
  induction fuel with
  | zero => intro k e h0; exact absurd rfl h0
  | succ f ih =>
    intro k e _ hfail hlast
    by_cases hf : f = 0
    · subst hf
      rw [show k + 1 - 1 = k by omega] at hlast
      rw [retryAux_raised_last parse api rid k e hlast]
      refine ⟨rfl, ?_⟩
      simp [List.countP_append, isCallEv, countP_preEvs_call]
    · have hshift : ∀ j, j + 1 < f → failedApi parse (api (k + 1 + j)) := fun j hj => by
        have h2 := hfail (j + 1) (by omega)
        rwa [show k + (j + 1) = k + 1 + j by omega] at h2
      have hlast2 : api (k + 1 + f - 1) = .raised e := by
        rwa [show k + 1 + f - 1 = k + (f + 1) - 1 by omega]
      have ihs := ih (k + 1) e hf hshift hlast2
      rcases h0 : api k with e0 | raw
      · rw [retryAux_raised_cont parse api rid f k e0 h0 hf]
        refine ⟨ihs.1, ?_⟩
        simp [List.countP_append, List.countP_cons, isCallEv, countP_preEvs_call, ihs.2]
      · rcases hfail 0 (by omega) with ⟨e1, habs⟩ | ⟨raw1, hok, hrej⟩
        · rw [Nat.add_zero] at habs; rw [h0] at habs; cases habs
        · rw [Nat.add_zero] at hok; rw [h0] at hok
          cases hok
          rw [retryAux_ok_reject parse api rid f k raw h0 hrej]
          refine ⟨ihs.1, ?_⟩
          simp [List.countP_append, List.countP_cons, isCallEv, countP_preEvs_call, ihs.2]

theorem retryAux_valid_src (parse : Str → Option (List Str)) (api : Nat → ApiResult)
    (rid : Nat) : ∀ fuel k cleaned,
      (retryAux parse api rid fuel k).2 = .valid cleaned →
    ∃ a raw, api a = .ok raw ∧ attemptValidate parse raw = .valid cleaned := by
  intro fuel
  induction fuel with
  | zero => intro k cleaned h; simp [retryAux] at h
  | succ f ih =>
    intro k cleaned h
    rcases hk : api k with e0 | raw
    · by_cases hf : f = 0
      · subst hf
        rw [retryAux_raised_last parse api rid k e0 hk] at h
        cases h
      · rw [retryAux_raised_cont parse api rid f k e0 hk hf] at h
        exact ih (k + 1) cleaned h
    · by_cases hval : ∃ c, attemptValidate parse raw = .valid c
      · obtain ⟨c, hc⟩ := hval
        rw [retryAux_ok_valid parse api rid f k raw c hk hc] at h
        simp at h
        subst h
        exact ⟨k, raw, hk, hc⟩
      · push_neg at hval
        rw [retryAux_ok_reject parse api rid f k raw hk hval] at h
        exact ih (k + 1) cleaned h

theorem veo3Head_ne_nil : veo3Head.toList ≠ [] := by decide

theorem pyTruthy_veo3 (t : Str) : pyTruthy (some (veo3Template t)) = true := by
  simp only [pyTruthy, veo3Template, Bool.not_eq_true']
  cases hh : veo3Head.toList with
  | nil => exact absurd hh veo3Head_ne_nil
  | cons c cs => simp [hh]

theorem processRecord_none (parse : Str → Option (List Str)) (api : Nat → Nat → ApiResult)
    (i : Nat) (r : Rec) (h : r.title = none) :
    processRecord parse api i r = ([], .crashed noneLenMsg) := by
  simp only [processRecord, h]

theorem generate_some (r : Rec) (t : Str) (h : r.title = some t) :
    generate_prompt_text r = some (veo3Template t) := by
  simp only [generate_prompt_text, h]

theorem processRecord_exhausted (parse : Str → Option (List Str))
    (api : Nat → Nat → ApiResult) (i : Nat) (r : Rec) (t : Str) (h : r.title = some t)
    (h2 : (retryAux parse (api i) i 4 0).2 = .exhausted) :
    processRecord parse api i r = ((retryAux parse (api i) i 4 0).1, .exhausted) := by
  simp only [processRecord, h, generate_some r t h, pyTruthy_veo3, Bool.not_true,
    Bool.false_eq_true, if_false, h2]

theorem processRecord_caught (parse : Str → Option (List Str))
    (api : Nat → Nat → ApiResult) (i : Nat) (r : Rec) (t : Str) (e : Str)
    (h : r.title = some t) (h2 : (retryAux parse (api i) i 4 0).2 = .raisedFinal e) :
    processRecord parse api i r = ((retryAux parse (api i) i 4 0).1, .caughtApiError e) := by
  simp only [processRecord, h, generate_some r t h, pyTruthy_veo3, Bool.not_true,
    Bool.false_eq_true, if_false, h2]

theorem processRecord_persisted (parse : Str → Option (List Str))
    (api : Nat → Nat → ApiResult) (i : Nat) (r : Rec) (t cleaned : Str)
    (h : r.title = some t) (h2 : (retryAux parse (api i) i 4 0).2 = .valid cleaned) :
    processRecord parse api i r =
      ((retryAux parse (api i) i 4 0).1 ++ [.persist r.id cleaned], .persisted cleaned) := by
  simp only [processRecord, h, generate_some r t h, pyTruthy_veo3, Bool.not_true,
    Bool.false_eq_true, if_false, h2]

theorem runLoop_crashed (parse : Str → Option (List Str)) (api : Nat → Nat → ApiResult)
    (n i : Nat) (r : Rec) (rest : List Rec) (m : Str)
    (h : (processRecord parse api i r).2 = .crashed m) :
    runLoop parse api n i (r :: rest) = ((processRecord parse api i r).1, .raised m) := by
  simp only [runLoop, h]

theorem runLoop_skipped (parse : Str → Option (List Str)) (api : Nat → Nat → ApiResult)
    (n i : Nat) (r : Rec) (rest : List Rec)
    (h : (processRecord parse api i r).2 = .skipped) :
    runLoop parse api n i (r :: rest) =
      ((processRecord parse api i r).1 ++ (runLoop parse api n (i + 1) rest).1,
       (runLoop parse api n (i + 1) rest).2) := by
  simp only [runLoop, h]

theorem runLoop_exhausted (parse : Str → Option (List Str)) (api : Nat → Nat → ApiResult)
    (n i : Nat) (r : Rec) (rest : List Rec)
    (h : (processRecord parse api i r).2 = .exhausted) :
    runLoop parse api n i (r :: rest) =
      ((processRecord parse api i r).1 ++ (runLoop parse api n (i + 1) rest).1,
       (runLoop parse api n (i + 1) rest).2) := by
  simp only [runLoop, h]

theorem runLoop_caught (parse : Str → Option (List Str)) (api : Nat → Nat → ApiResult)
    (n i : Nat) (r : Rec) (rest : List Rec) (e : Str)
    (h : (processRecord parse api i r).2 = .caughtApiError e) :
    runLoop parse api n i (r :: rest) =
      ((processRecord parse api i r).1 ++ (if i + 1 < n then [Ev.sleep 15] else []) ++
        (runLoop parse api n (i + 1) rest).1,
       (runLoop parse api n (i + 1) rest).2) := by
  simp only [runLoop, h]

theorem runLoop_persisted (parse : Str → Option (List Str)) (api : Nat → Nat → ApiResult)
    (n i : Nat) (r : Rec) (rest : List Rec) (p : Str)
    (h : (processRecord parse api i r).2 = .persisted p) :
    runLoop parse api n i (r :: rest) =
      ((processRecord parse api i r).1 ++ (if i + 1 < n then [Ev.sleep 15] else []) ++
        (runLoop parse api n (i + 1) rest).1,
       (runLoop parse api n (i + 1) rest).2) := by
  simp only [runLoop, h]

/-- C4: given a record whose generation attempts all yield validator-rejected
output, exactly 4 attempts are made, the record ends exhausted with no persist
call in its trace, and the batch continues with the remaining records
unchanged (exhaustion does not abort the batch). -/
theorem claim_C4_retry_exhaustion (parse : Str → Option (List Str))
    (api : Nat → Nat → ApiResult) (n i : Nat) (r : Rec) (t : Str) (rest : List Rec)
    (ht : r.title = some t)
    (hrej : ∀ k, k < 4 → rejectedApi parse (api i k)) :
    (processRecord parse api i r).2 = .exhausted ∧
    (processRecord parse api i r).1.countP isCallEv = 4 ∧
    (∀ id p, Ev.persist id p ∉ (processRecord parse api i r).1) ∧
    runLoop parse api n i (r :: rest) =
      ((processRecord parse api i r).1 ++ (runLoop parse api n (i + 1) rest).1,
       (runLoop parse api n (i + 1) rest).2) := by
  have hra := retryAux_all_rejected parse (api i) i 4 0 (fun j hj => by
    rw [Nat.zero_add]; exact hrej j hj)
  have hpe := processRecord_exhausted parse api i r t ht hra.1
  refine ⟨by rw [hpe], by rw [hpe]; exact hra.2, ?_,
    runLoop_exhausted parse api n i r rest (by rw [hpe])⟩
  intro id p hmem
  rw [hpe] at hmem
  rcases retryAux_events parse (api i) i 4 0 _ hmem with ⟨a, ha⟩ | ha
  · simp at ha
  · simp at ha

/-- Rejected JSON body used by concrete scenarios. -/
def rawBad : Str := "bad".toList

/-- A well-formed result payload used by concrete scenarios. -/
def jgoodStr : String := "\x7b\"part1_prompt\": \"a\", \"part2_prompt\": \"b\"\x7d"

/-- Concrete `json.loads` oracle: accepts exactly `jgoodStr` as an object with
both required keys. -/
def parseW (s : Str) : Option (List Str) :=
  if s = jgoodStr.toList then some [part1Key, part2Key] else none

/-- Attempt oracle that always answers with a rejected body. -/
def apiBad : Nat → Nat → ApiResult := fun _ _ => .ok rawBad

/-- Attempt oracle that always answers with the well-formed body. -/
def apiGood : Nat → Nat → ApiResult := fun _ _ => .ok jgoodStr.toList

/-- Concrete claimed records. -/
def recA : Rec := ⟨1, some "ta".toList, none⟩

/-- Concrete claimed records. -/
def recB : Rec := ⟨2, some "tb".toList, none⟩

theorem claim_C4_witness :
    (∀ k, k < 4 → rejectedApi parseW (apiBad 0 k)) ∧
    ((processRecord parseW apiBad 0 recA).2 = .exhausted ∧
     (processRecord parseW apiBad 0 recA).1.countP isCallEv = 4 ∧
     (∀ id p, Ev.persist id p ∉ (processRecord parseW apiBad 0 recA).1) ∧
     runLoop parseW apiBad 1 0 (recA :: []) =
       ((processRecord parseW apiBad 0 recA).1 ++ (runLoop parseW apiBad 1 1 []).1,
        (runLoop parseW apiBad 1 1 []).2)) := by
  have hrej : ∀ k, k < 4 → rejectedApi parseW (apiBad 0 k) := by
    intro k _
    refine ⟨rawBad, rfl, ?_⟩
    intro c hc
    have hm : attemptValidate parseW rawBad = .malformed := by decide
    rw [hm] at hc
    cases hc
  exact ⟨hrej, claim_C4_retry_exhaustion parseW apiBad 1 0 recA ("ta".toList) [] rfl hrej⟩

/-- Embedding of the session-invalid signature test (`gen.py` lines 296-297).
In the source it only selects an advisory log message; it has no effect on
control flow. -/
def sessionInvalidSig (e : Str) : Bool :=
  strIn ("Invalid response".toList) e || strIn ("406".toList) e

/-- A transport-error message matching the session-invalid signature. -/
def err406 : Str := "406 Not Acceptable".toList

/-- Attempt oracle for the fatal-escalation scenario: every attempt of record 0
raises the session-invalid error; later records answer with the well-formed
body. -/
def apiC1 : Nat → Nat → ApiResult :=
  fun i _ => if i = 0 then .raised err406 else .ok jgoodStr.toList

theorem claim_C1_counterexample :
    sessionInvalidSig err406 = true ∧
    (process_records_with_api parseW apiC1 [recA, recB] none).2 = .finished ∧
    Ev.call 1 0 ∈ (process_records_with_api parseW apiC1 [recA, recB] none).1 ∧
    Ev.persist 2 jgoodStr.toList ∈
      (process_records_with_api parseW apiC1 [recA, recB] none).1 := by
  refine ⟨by decide, ?_, ?_, ?_⟩ <;> decide

/-- C1 (amended): a transport error raised on the final (4th) attempt of a
record — session-invalid or not — is re-raised by the retry loop but caught by
the per-record exception handler: the record is abandoned with no persist
call, the pacing sleep still runs when records remain, the batch continues
with the subsequent records, and the error is not surfaced to the top-level
caller (the batch outcome is whatever the remaining records produce). -/
theorem claim_C1_final_error_caught (parse : Str → Option (List Str))
    (api : Nat → Nat → ApiResult) (n i : Nat) (r : Rec) (t : Str) (rest : List Rec)
    (e : Str) (ht : r.title = some t)
    (hfail : ∀ k, k + 1 < 4 → failedApi parse (api i k))
    (hlast : api i 3 = .raised e) :
    (processRecord parse api i r).2 = .caughtApiError e ∧
    (∀ id p, Ev.persist id p ∉ (processRecord parse api i r).1) ∧
    runLoop parse api n i (r :: rest) =
      ((processRecord parse api i r).1 ++ (if i + 1 < n then [Ev.sleep 15] else []) ++
        (runLoop parse api n (i + 1) rest).1,
       (runLoop parse api n (i + 1) rest).2) := by
  have hrf := retryAux_final_raise parse (api i) i 4 0 e (by omega)
    (fun j hj => by rw [Nat.zero_add]; exact hfail j hj)
    (by rw [show (0 : Nat) + 4 - 1 = 3 from rfl]; exact hlast)
  have hpc := processRecord_caught parse api i r t e ht hrf.1
  refine ⟨by rw [hpc], ?_, runLoop_caught parse api n i r rest e (by rw [hpc])⟩
  intro id p hmem
  rw [hpc] at hmem
  rcases retryAux_events parse (api i) i 4 0 _ hmem with ⟨a, ha⟩ | ha
  · simp at ha
  · simp at ha

theorem claim_C1_witness :
    (∀ k, k + 1 < 4 → failedApi parseW (apiC1 0 k)) ∧ apiC1 0 3 = .raised err406 ∧
    ((processRecord parseW apiC1 0 recA).2 = .caughtApiError err406 ∧
     (∀ id p, Ev.persist id p ∉ (processRecord parseW apiC1 0 recA).1) ∧
     runLoop parseW apiC1 2 0 (recA :: [recB]) =
       ((processRecord parseW apiC1 0 recA).1 ++
         (if 0 + 1 < 2 then [Ev.sleep 15] else []) ++
         (runLoop parseW apiC1 2 1 [recB]).1,
        (runLoop parseW apiC1 2 1 [recB]).2)) := by
  have hfail : ∀ k, k + 1 < 4 → failedApi parseW (apiC1 0 k) := by
    intro k _
    exact Or.inl ⟨err406, rfl⟩
  exact ⟨hfail, rfl,
    claim_C1_final_error_caught parseW apiC1 2 0 recA ("ta".toList) [recB] err406 rfl
      hfail rfl⟩

/-- Attempt oracle for the pacing scenario: record 0 always gets the rejected
body (and so exhausts its retries), later records get the well-formed body. -/
def apiC5 : Nat → Nat → ApiResult :=
  fun i _ => if i = 0 then .ok rawBad else .ok jgoodStr.toList

theorem claim_C5_counterexample :
    (process_records_with_api parseW apiC5 [recA, recB] none).2 = .finished ∧
    Ev.call 1 0 ∈ (process_records_with_api parseW apiC5 [recA, recB] none).1 ∧
    Ev.sleep 15 ∉ (process_records_with_api parseW apiC5 [recA, recB] none).1 := by
  refine ⟨?_, ?_, ?_⟩ <;> decide

theorem claim_C5_pacing (parse : Str → Option (List Str)) (api : Nat → Nat → ApiResult)
    (n i : Nat) (r : Rec) (rest : List Rec) :
    Ev.sleep 15 ∉ (processRecord parse api i r).1 ∧
    ((processRecord parse api i r).2 = .skipped ∨
        (processRecord parse api i r).2 = .exhausted →
      runLoop parse api n i (r :: rest) =
        ((processRecord parse api i r).1 ++ (runLoop parse api n (i + 1) rest).1,
         (runLoop parse api n (i + 1) rest).2)) ∧
    (∀ pay, (processRecord parse api i r).2 = .persisted pay ∨
        (processRecord parse api i r).2 = .caughtApiError pay →
      runLoop parse api n i (r :: rest) =
        ((processRecord parse api i r).1 ++ (if i + 1 < n then [Ev.sleep 15] else []) ++
          (runLoop parse api n (i + 1) rest).1,
         (runLoop parse api n (i + 1) rest).2)) := by
  refine ⟨?_, ?_, ?_⟩
  · intro hmem
    rcases ht : r.title with _ | t
    · rw [processRecord_none parse api i r ht] at hmem
      simp at hmem
    · have hretry : ∀ e, e ∈ (retryAux parse (api i) i 4 0).1 → e ≠ Ev.sleep 15 := by
        intro e he
        rcases retryAux_events parse (api i) i 4 0 _ he with ⟨a, ha⟩ | ha <;> subst ha <;> simp
      rcases h2 : (retryAux parse (api i) i 4 0).2 with cleaned | _ | e
      · rw [processRecord_persisted parse api i r t cleaned ht h2] at hmem
        rcases List.mem_append.mp hmem with hm | hm
        · exact hretry _ hm rfl
        · simp at hm
      · rw [processRecord_exhausted parse api i r t ht h2] at hmem
        exact hretry _ hmem rfl
      · rw [processRecord_caught parse api i r t e ht h2] at hmem
        exact hretry _ hmem rfl
  · intro h
    rcases h with h | h
    · exact runLoop_skipped parse api n i r rest h
    · exact runLoop_exhausted parse api n i r rest h
  · intro pay h
    rcases h with h | h
    · exact runLoop_persisted parse api n i r rest pay h
    · exact runLoop_caught parse api n i r rest pay h

theorem claim_C5_witness :
    ((processRecord parseW apiBad 0 recA).2 = .exhausted ∧
     runLoop parseW apiBad 2 0 (recA :: [recB]) =
       ((processRecord parseW apiBad 0 recA).1 ++ (runLoop parseW apiBad 2 1 [recB]).1,
        (runLoop parseW apiBad 2 1 [recB]).2)) ∧
    ((processRecord parseW apiGood 0 recA).2 = .persisted jgoodStr.toList ∧
     runLoop parseW apiGood 2 0 (recA :: [recB]) =
       ((processRecord parseW apiGood 0 recA).1 ++
         (if 0 + 1 < 2 then [Ev.sleep 15] else []) ++
         (runLoop parseW apiGood 2 1 [recB]).1,
        (runLoop parseW apiGood 2 1 [recB]).2)) := by
  have h1 : (processRecord parseW apiBad 0 recA).2 = .exhausted := by decide
  have h2 : (processRecord parseW apiGood 0 recA).2 = .persisted jgoodStr.toList := by decide
  exact ⟨⟨h1, (claim_C5_pacing parseW apiBad 2 0 recA [recB]).2.1 (Or.inr h1)⟩,
    ⟨h2, (claim_C5_pacing parseW apiGood 2 0 recA [recB]).2.2 jgoodStr.toList (Or.inl h2)⟩⟩

theorem claim_C6_counterexample :
    Ev.call 0 0 ∈ (process_records_with_api parseW apiGood [recA] (some 0)).1 ∧
    Ev.persist 1 jgoodStr.toList ∈
      (process_records_with_api parseW apiGood [recA] (some 0)).1 := by
  refine ⟨?_, ?_⟩ <;> decide

/-- C6 (amended): for every positive `record_cap` k, running with the cap is
the same as running the untruncated coordinator on the first k claimed records
(so when k is at most the claimed batch size, exactly k records are processed,
in claimed order); a cap of 0 is falsy in Python, disables truncation, and
processes the whole batch instead of zero records. -/
theorem claim_C6_batch_cap (parse : Str → Option (List Str)) (api : Nat → Nat → ApiResult)
    (records : List Rec) (k : Nat) (hk : 0 < k) :
    process_records_with_api parse api records (some k) =
      process_records_with_api parse api (records.take k) none ∧
    (k ≤ records.length → (records.take k).length = k) := by
  constructor
  · obtain ⟨j, rfl⟩ : ∃ j, k = j + 1 := ⟨k - 1, by omega⟩
    rcases records with _ | ⟨r, rs⟩
    · rfl
    · simp [process_records_with_api, truncRecords]
  · intro hle
    simp [List.length_take]
    omega

theorem claim_C6_witness :
    0 < 1 ∧
    (process_records_with_api parseW apiGood [recA, recB] (some 1) =
      process_records_with_api parseW apiGood ([recA, recB].take 1) none ∧
     (1 ≤ [recA, recB].length → ([recA, recB].take 1).length = 1)) :=
  ⟨by decide, claim_C6_batch_cap parseW apiGood [recA, recB] 1 (by decide)⟩

/-- A claimed record whose title is NULL. -/
def recNone : Rec := ⟨1, none, none⟩

theorem claim_C9_counterexample :
    process_records_with_api parseW apiGood [recNone, recB] none = ([], .raised noneLenMsg) ∧
    (process_records_with_api parseW apiGood [recB] none).2 = .finished ∧
    Ev.persist 2 jgoodStr.toList ∈ (process_records_with_api parseW apiGood [recB] none).1 := by
  refine ⟨?_, ?_, ?_⟩ <;> decide

/-- C9 (amended): a record with an absent title does not reach the renderer or
the skip branch: the coordinator raises an uncaught TypeError in the logging
expression at `gen.py` line 223, emits no events (in particular zero
generation attempts), and the batch aborts instead of continuing with the next
record; whereas for a record with a present title the rendered prompt is never
falsy, so the skip-without-consuming-retries branch is never taken for records
produced by the claim query. -/
theorem claim_C9_render (parse : Str → Option (List Str)) (api : Nat → Nat → ApiResult)
    (n i : Nat) (r : Rec) (rest : List Rec) :
    (r.title = none → runLoop parse api n i (r :: rest) = ([], .raised noneLenMsg)) ∧
    (∀ t, r.title = some t → pyTruthy (generate_prompt_text r) = true) := by
  constructor
  · intro h
    have hp := processRecord_none parse api i r h
    have hl := runLoop_crashed parse api n i r rest noneLenMsg (by rw [hp])
    rw [hl, hp]
  · intro t ht
    rw [generate_some r t ht]
    exact pyTruthy_veo3 t

theorem claim_C9_witness :
    runLoop parseW apiGood 2 0 (recNone :: [recB]) = ([], .raised noneLenMsg) ∧
    pyTruthy (generate_prompt_text recA) = true :=
  ⟨(claim_C9_render parseW apiGood 2 0 recNone [recB]).1 rfl,
   (claim_C9_render parseW apiGood 1 0 recA []).2 ("ta".toList) rfl⟩

theorem attemptValidate_valid_inv (parse : Str → Option (List Str)) (raw c : Str)
    (h : attemptValidate parse raw = .valid c) :
    c = clean_json_response raw ∧
    ∃ keys, parse (clean_json_response raw) = some keys ∧
      (keys.contains part1Key && keys.contains part2Key) = true := by
  simp only [attemptValidate] at h
  split at h
  · cases h
  · split at h
    · cases h
    · rename_i keys heq
      split at h
      · rename_i hcond
        cases h
        exact ⟨rfl, keys, heq, hcond⟩
      · cases h

theorem runLoop_persist (parse : Str → Option (List Str)) (api : Nat → Nat → ApiResult)
    (n : Nat) : ∀ recs i pid p, Ev.persist pid p ∈ (runLoop parse api n i recs).1 →
      (∃ r, r ∈ recs ∧ pid = r.id) ∧
      ∃ rid a raw, api rid a = .ok raw ∧ attemptValidate parse raw = .valid p := by
  intro recs
  induction recs with
  | nil => intro i pid p h; simp [runLoop] at h
  | cons r rest ih =>
    intro i pid p h
    have hpace : Ev.persist pid p ∉ (if i + 1 < n then [Ev.sleep 15] else []) := by
      split <;> simp
    rcases ht : r.title with _ | t
    · have hp0 := processRecord_none parse api i r ht
      rw [runLoop_crashed parse api n i r rest noneLenMsg (by rw [hp0]), hp0] at h
      simp at h
    · have hnp : Ev.persist pid p ∉ (retryAux parse (api i) i 4 0).1 := by
        intro hm
        rcases retryAux_events parse (api i) i 4 0 _ hm with ⟨a, ha⟩ | ha <;> simp at ha
      rcases h2 : (retryAux parse (api i) i 4 0).2 with cleaned | _ | e
      · have hp0 := processRecord_persisted parse api i r t cleaned ht h2
        rw [runLoop_persisted parse api n i r rest cleaned (by rw [hp0]), hp0] at h
        simp only [List.append_assoc, List.mem_append] at h
        rcases h with h | h | h | h
        · exact absurd h hnp
        · simp at h
          obtain ⟨hpid, hp⟩ := h
          refine ⟨⟨r, List.mem_cons_self r rest, hpid⟩, ?_⟩
          obtain ⟨a, raw, hok, hval⟩ := retryAux_valid_src parse (api i) i 4 0 cleaned h2
          rw [← hp] at hval
          exact ⟨i, a, raw, hok, hval⟩
        · exact absurd h hpace
        · obtain ⟨⟨r', hr', hpid⟩, hrest⟩ := ih (i + 1) pid p h
          exact ⟨⟨r', List.mem_cons_of_mem r hr', hpid⟩, hrest⟩
      · have hp0 := processRecord_exhausted parse api i r t ht h2
        rw [runLoop_exhausted parse api n i r rest (by rw [hp0]), hp0] at h
        rcases List.mem_append.mp h with h | h
        · exact absurd h hnp
        · obtain ⟨⟨r', hr', hpid⟩, hrest⟩ := ih (i + 1) pid p h
          exact ⟨⟨r', List.mem_cons_of_mem r hr', hpid⟩, hrest⟩
      · have hp0 := processRecord_caught parse api i r t e ht h2
        rw [runLoop_caught parse api n i r rest e (by rw [hp0]), hp0] at h
        simp only [List.append_assoc, List.mem_append] at h
        rcases h with h | h | h
        · exact absurd h hnp
        · exact absurd h hpace
        · obtain ⟨⟨r', hr', hpid⟩, hrest⟩ := ih (i + 1) pid p h
          exact ⟨⟨r', List.mem_cons_of_mem r hr', hpid⟩, hrest⟩

/-- C8: every payload handed to a persist call is byte-for-byte the cleaned
JSON string exactly as it was validated: it equals `clean_json_response` of
the raw response of some successful generation call, and the `json.loads`
oracle accepted that very string with both required keys present — it is not a
re-serialization of the parsed object. -/
theorem claim_C8_payload (parse : Str → Option (List Str)) (api : Nat → Nat → ApiResult)
    (records : List Rec) (limit : Option Nat) (pid : Nat) (p : Str)
    (h : Ev.persist pid p ∈ (process_records_with_api parse api records limit).1) :
    ∃ raw keys, p = clean_json_response raw ∧ parse p = some keys ∧
      (keys.contains part1Key && keys.contains part2Key) = true ∧
      ∃ rid a, api rid a = .ok raw := by
  unfold process_records_with_api at h
  cases hre : records.isEmpty
  · rw [hre] at h
    simp only [Bool.false_eq_true, if_false] at h
    obtain ⟨_, rid, a, raw, hok, hval⟩ := runLoop_persist parse api _ _ 0 pid p h
    obtain ⟨hc, keys, hp, hk⟩ := attemptValidate_valid_inv parse raw p hval
    rw [← hc] at hp
    exact ⟨raw, keys, hc, hp, hk, rid, a, hok⟩
  · rw [hre] at h
    simp at h

theorem claim_C8_witness :
    Ev.persist 1 jgoodStr.toList ∈
      (process_records_with_api parseW apiGood [recA] none).1 ∧
    ∃ raw keys, jgoodStr.toList = clean_json_response raw ∧
      parseW jgoodStr.toList = some keys ∧
      (keys.contains part1Key && keys.contains part2Key) = true ∧
      ∃ rid a, apiGood rid a = .ok raw :=
  ⟨by decide, claim_C8_payload parseW apiGood [recA] none 1 jgoodStr.toList (by decide)⟩

/-- One row of the `products_ai` table, restricted to the columns the job
touches: primary key, title, auxiliary payload, result column, the two boolean
gating flags (nullable in SQL), and the last-modified timestamp. -/
structure Row where
  id : Nat
  title : Option Str
  image_data : Option Str
  prompt_veo3 : Option Str
  image_status : Option Bool
  crawl_status : Option Bool
  updated_at : Nat
deriving DecidableEq

/-- The WHERE clause of the claim query (`gen.py` lines 131-133):
`prompt_veo3 IS NULL AND image_status = TRUE AND crawl_status IS NULL`. -/
def eligible (r : Row) : Bool :=
  r.prompt_veo3.isNone && r.image_status == some true && r.crawl_status.isNone

/-- Insertion step of the relational `ORDER BY id ASC` semantics. -/
def insertById (r : Row) : List Row → List Row
  | [] => [r]
  | x :: xs => if r.id ≤ x.id then r :: x :: xs else x :: insertById r xs

/-- Sort rows by ascending identifier (`ORDER BY id ASC`). -/
def sortById : List Row → List Row
  | [] => []
  | x :: xs => insertById x (sortById xs)

/-- Embedding of `fetch_pending_records` (`gen.py` lines 115-145): one atomic
`UPDATE ... SET crawl_status = TRUE WHERE id IN (SELECT id ... WHERE eligible
ORDER BY id ASC LIMIT k) RETURNING id, title, image_data`, committed on
success.  The table is a row list; `fail` models any exception, on which the
transaction rolls back (table unchanged) and `[]` is returned.  `RETURNING`
values are the claimed rows' unmodified columns, in the inner select's
ascending-id order. -/
def fetch_pending_records (db : List Row) (limit : Nat) (fail : Bool) :
    List Row × List (Nat × Option Str × Option Str) :=
  if fail then (db, [])
  else
    let sel := (sortById (db.filter eligible)).take limit
    let ids := sel.map Row.id
    let db2 := db.map fun r =>
      if ids.contains r.id then { r with crawl_status := some true } else r
    (db2, sel.map fun r => (r.id, r.title, r.image_data))

/-- Embedding of `update_record` (`gen.py` lines 148-163): set the result
column and the timestamp for the row with the given id, committing on success;
`fail` models an exception, on which the transaction rolls back (table
unchanged, error logged but not re-raised). -/
def update_record (db : List Row) (rid : Nat) (payload : Str) (now : Nat)
    (fail : Bool) : List Row :=
  if fail then db
  else db.map fun r =>
    if r.id = rid then { r with prompt_veo3 := some payload, updated_at := now } else r

theorem mem_insertById (r a : Row) (l : List Row) :
    a ∈ insertById r l ↔ a = r ∨ a ∈ l := by
  induction l with
  | nil => simp [insertById]
  | cons x xs ih =>
    by_cases hle : r.id ≤ x.id
    · simp [insertById, hle]
    · simp [insertById, hle, ih]
      tauto

theorem mem_sortById (a : Row) (l : List Row) : a ∈ sortById l ↔ a ∈ l := by
  induction l with
  | nil => simp [sortById]
  | cons x xs ih => simp [sortById, mem_insertById, ih]

theorem length_insertById (r : Row) (l : List Row) :
    (insertById r l).length = l.length + 1 := by
  induction l with
  | nil => simp [insertById]
  | cons x xs ih =>
    by_cases hle : r.id ≤ x.id
    · simp [insertById, hle]
    · simp [insertById, hle, ih]

theorem length_sortById (l : List Row) : (sortById l).length = l.length := by
  induction l with
  | nil => rfl
  | cons x xs ih => simp [sortById, length_insertById, ih]

theorem pairwise_insertById (r : Row) (l : List Row)
    (h : List.Pairwise (fun a b => a.id ≤ b.id) l) :
    List.Pairwise (fun a b => a.id ≤ b.id) (insertById r l) := by
  induction l with
  | nil => simp [insertById]
  | cons x xs ih =>
    rcases List.pairwise_cons.mp h with ⟨hx, hxs⟩
    by_cases hle : r.id ≤ x.id
    · simp only [insertById, hle, if_true]
      refine List.pairwise_cons.mpr ⟨?_, h⟩
      intro b hb
      rcases List.mem_cons.mp hb with rfl | hb
      · exact hle
      · exact le_trans hle (hx b hb)
    · simp only [insertById, hle, if_false]
      refine List.pairwise_cons.mpr ⟨?_, ih hxs⟩
      intro b hb
      rcases (mem_insertById r b xs).mp hb with rfl | hb
      · omega
      · exact hx b hb

theorem pairwise_sortById (l : List Row) :
    List.Pairwise (fun a b => a.id ≤ b.id) (sortById l) := by
  induction l with
  | nil => simp [sortById]
  | cons x xs ih => exact pairwise_insertById x (sortById xs) ih

theorem fetch_false_eq (db : List Row) (k : Nat) :
    fetch_pending_records db k false =
      (db.map fun r =>
        if (((sortById (db.filter eligible)).take k).map Row.id).contains r.id
        then { r with crawl_status := some true } else r,
       ((sortById (db.filter eligible)).take k).map fun r =>
        (r.id, r.title, r.image_data)) := rfl

/-- C2: the claim operation selects up to `limit` rows satisfying exactly the
eligibility predicate (result null, upstream image flag true, claim flag
unset), in ascending identifier order (and all of them when fewer than `limit`
are eligible), flips the claim flag of exactly the selected rows in the same
atomic step while leaving every other row untouched, and returns the pre-claim
snapshot (id, title, payload); on an error the transaction rolls back (the
table is unchanged) and the empty sequence is returned. -/
theorem claim_C2_claim_batch (db : List Row) (k : Nat) :
    (∀ r : Row, eligible r = true ↔
      (r.prompt_veo3 = none ∧ r.image_status = some true ∧ r.crawl_status = none)) ∧
    fetch_pending_records db k true = (db, []) ∧
    (fetch_pending_records db k false).2.length ≤ k ∧
    (∀ x ∈ (fetch_pending_records db k false).2,
      ∃ r, r ∈ db ∧ eligible r = true ∧ x = (r.id, r.title, r.image_data)) ∧
    ((db.filter eligible).length ≤ k → ∀ r, r ∈ db → eligible r = true →
      (r.id, r.title, r.image_data) ∈ (fetch_pending_records db k false).2) ∧
    List.Pairwise (fun a b => a.1 ≤ b.1) (fetch_pending_records db k false).2 ∧
    (∀ r, r ∈ db →
      (r.id ∉ (fetch_pending_records db k false).2.map (fun x => x.1) →
        r ∈ (fetch_pending_records db k false).1) ∧
      (r.id ∈ (fetch_pending_records db k false).2.map (fun x => x.1) →
        { r with crawl_status := some true } ∈ (fetch_pending_records db k false).1)) := by
  have hids : (fetch_pending_records db k false).2.map (fun x => x.1) =
      ((sortById (db.filter eligible)).take k).map Row.id := by
    rw [fetch_false_eq]
    simp only [List.map_map]
    rfl
  refine ⟨?_, rfl, ?_, ?_, ?_, ?_, ?_⟩
  · intro r
    simp [eligible, Bool.and_eq_true, Option.isNone_iff_eq_none, and_assoc]
  · rw [fetch_false_eq]
    simp only [List.length_map]
    exact List.length_take_le k _
  · intro x hx
    rw [fetch_false_eq] at hx
    rcases List.mem_map.mp hx with ⟨r, hr, rfl⟩
    have hr2 := (mem_sortById r _).mp (List.mem_of_mem_take hr)
    exact ⟨r, (List.mem_filter.mp hr2).1, (List.mem_filter.mp hr2).2, rfl⟩
  · intro hlen r hr he
    have htk : (sortById (db.filter eligible)).take k = sortById (db.filter eligible) :=
      List.take_of_length_le (by rw [length_sortById]; exact hlen)
    rw [fetch_false_eq]
    simp only [htk]
    exact List.mem_map.mpr ⟨r, (mem_sortById r _).mpr (List.mem_filter.mpr ⟨hr, he⟩), rfl⟩
  · rw [fetch_false_eq]
    simp only
    rw [List.pairwise_map]
    exact List.Pairwise.sublist (List.take_sublist k _) (pairwise_sortById _)
  · intro r hr
    rw [hids]
    constructor
    · intro hnot
      rw [fetch_false_eq]
      have hc : (((sortById (db.filter eligible)).take k).map Row.id).contains r.id = false := by
        rw [Bool.eq_false_iff]
        intro hcontr
        exact hnot (List.elem_iff.mp hcontr)
      refine List.mem_map.mpr ⟨r, hr, ?_⟩
      rw [hc]
      simp
    · intro hmem
      rw [fetch_false_eq]
      have hc : (((sortById (db.filter eligible)).take k).map Row.id).contains r.id = true :=
        List.elem_iff.mpr hmem
      refine List.mem_map.mpr ⟨r, hr, ?_⟩
      rw [hc]
      simp

/-- An eligible row used by concrete scenarios. -/
def rowE : Row := ⟨1, some "t1".toList, none, none, some true, none, 0⟩

/-- An ineligible row (result already written) used by concrete scenarios. -/
def rowN : Row := ⟨2, some "t2".toList, none, some jgoodStr.toList, some true, none, 0⟩

/-- A small concrete table. -/
def dbW : List Row := [rowN, rowE]

theorem claim_C2_witness :
    ((dbW.filter eligible).length ≤ 3 ∧ rowE ∈ dbW ∧ eligible rowE = true) ∧
    (rowE.id, rowE.title, rowE.image_data) ∈ (fetch_pending_records dbW 3 false).2 ∧
    fetch_pending_records dbW 3 true = (dbW, []) := by
  refine ⟨⟨by decide, by decide, by decide⟩, ?_, (claim_C2_claim_batch dbW 3).2.1⟩
  exact (claim_C2_claim_batch dbW 3).2.2.2.2.1 (by decide) rowE (by decide) (by decide)

/-- C7: a successful result write leaves the row's result column non-null; any
row whose result column is non-null can never be selected by a later claim
query (so a later run cannot re-validate or overwrite it); and the coordinator
only ever persists ids of records belonging to its claimed batch. -/
theorem claim_C7_idempotent :
    (∀ db rid payload now r, r ∈ update_record db rid payload now false →
      r.id = rid → r.prompt_veo3 = some payload) ∧
    (∀ (db2 : List Row) rid k fail,
      (∀ r, r ∈ db2 → r.id = rid → r.prompt_veo3 ≠ none) →
      rid ∉ (fetch_pending_records db2 k fail).2.map (fun x => x.1)) ∧
    (∀ parse api records limit pid p,
      Ev.persist pid p ∈ (process_records_with_api parse api records limit).1 →
      pid ∈ records.map Rec.id) := by
  refine ⟨?_, ?_, ?_⟩
  · intro db rid payload now r hr hid
    simp only [update_record, Bool.false_eq_true, if_false] at hr
    rcases List.mem_map.mp hr with ⟨r0, hr0, rfl⟩
    by_cases h0 : r0.id = rid
    · simp [h0]
    · simp [h0] at hid
  · intro db2 rid k fail hnn hmem
    cases fail
    · rw [fetch_false_eq] at hmem
      simp only [List.map_map] at hmem
      rcases List.mem_map.mp hmem with ⟨r, hr, hid⟩
      have hr2 := (mem_sortById r _).mp (List.mem_of_mem_take hr)
      have hel := (List.mem_filter.mp hr2).2
      have hdb := (List.mem_filter.mp hr2).1
      have hnone : r.prompt_veo3 = none := by
        simp [eligible, Bool.and_eq_true, Option.isNone_iff_eq_none] at hel
        exact hel.1.1
      exact hnn r hdb hid hnone
    · simp [fetch_pending_records] at hmem
  · intro parse api records limit pid p h
    unfold process_records_with_api at h
    cases hre : records.isEmpty
    · rw [hre] at h
      simp only [Bool.false_eq_true, if_false] at h
      obtain ⟨⟨r, hr, hpid⟩, _⟩ := runLoop_persist parse api _ _ 0 pid p h
      have hr2 : r ∈ records := by
        unfold truncRecords at hr
        rcases limit with _ | k
        · exact hr
        · by_cases hk : k = 0
          · simpa [hk] using hr
          · simp only [hk, if_false] at hr
            exact List.mem_of_mem_take hr
      exact List.mem_map.mpr ⟨r, hr2, hpid.symm⟩
    · rw [hre] at h
      simp at h

theorem claim_C7_witness :
    ({ rowE with prompt_veo3 := some jgoodStr.toList, updated_at := 5 } ∈
        update_record [rowE] 1 jgoodStr.toList 5 false ∧
      (∀ r, r ∈ update_record [rowE] 1 jgoodStr.toList 5 false → r.id = 1 →
        r.prompt_veo3 ≠ none) ∧
      Ev.persist 1 jgoodStr.toList ∈
        (process_records_with_api parseW apiGood [recA] none).1) ∧
    ({ rowE with prompt_veo3 := some jgoodStr.toList, updated_at := 5 }).prompt_veo3 =
      some jgoodStr.toList ∧
    (1 : Nat) ∉ (fetch_pending_records (update_record [rowE] 1 jgoodStr.toList 5 false)
      30 false).2.map (fun x => x.1) ∧
    (1 : Nat) ∈ [recA].map Rec.id := by
  refine ⟨⟨by decide, by decide, by decide⟩, ?_, ?_, ?_⟩
  · exact claim_C7_idempotent.1 [rowE] 1 jgoodStr.toList 5
      ({ rowE with prompt_veo3 := some jgoodStr.toList, updated_at := 5 }) (by decide) (by decide)
  · exact claim_C7_idempotent.2.1 (update_record [rowE] 1 jgoodStr.toList 5 false) 1 30 false
      (by decide)
  · exact claim_C7_idempotent.2.2 parseW apiGood [recA] none 1 jgoodStr.toList (by decide)

/-- Python dict assignment `d[key] = value`: overwrite in place when the key
exists, else append (insertion order preserved, as in Python). -/
def dictInsert (d : List (Str × Str)) (k v : Str) : List (Str × Str) :=
  if d.any (fun p => p.1 == k) then d.map (fun p => if p.1 == k then (p.1, v) else p)
  else d ++ [(k, v)]

/-- Shared cookie-parsing loop of `load_cookies_from_file` (`gen.py`
lines 79-86) and `load_cookies_from_env` (lines 95-102) — the two loops are
textually identical in the source: strip each `;`-separated segment, and for
segments containing `=`, split at the first `=` into key and value. -/
def cookieFold (d : List (Str × Str)) : List Str → List (Str × Str)
  | [] => d
  | seg :: rest =>
    let c := pyStrip seg
    if c.contains '=' then
      cookieFold (dictInsert d (c.takeWhile (· ≠ '=')) ((c.dropWhile (· ≠ '=')).drop 1)) rest
    else cookieFold d rest

/-- Embedding of `load_cookies_from_file` (`gen.py` lines 70-86) applied to
the file's contents (the existence check and read are I/O, outside the
embedding): the whole string is stripped first (line 76), then split on `;`
and parsed. -/
def load_cookies_from_file (contents : Str) : List (Str × Str) :=
  cookieFold [] (splitOnChar ';' (pyStrip contents))

/-- Embedding of `load_cookies_from_env` (`gen.py` lines 89-102) applied to
the value of `GEMINI_COOKIES` (the empty string when unset, as
`os.getenv(..., "")` supplies): `none` for an empty string (line 93) or an
empty parse result (line 102); the string is not pre-stripped. -/
def load_cookies_from_env (v : Str) : Option (List (Str × Str)) :=
  if v.isEmpty then none
  else
    let cookies := cookieFold [] (splitOnChar ';' v)
    if cookies.isEmpty then none else some cookies

theorem trimL_idem (l : Str) : trimL (trimL l) = trimL l := by
  induction l with
  | nil => rfl
  | cons x xs ih =>
    by_cases hwx : ws x
    · simp [trimL, List.dropWhile_cons, hwx] at ih ⊢
      exact ih
    · simp [trimL, List.dropWhile_cons, hwx]

theorem trimR_idem (l : Str) : trimR (trimR l) = trimR l := by
  induction l with
  | nil => rfl
  | cons x xs ih =>
    cases h : trimR xs with
    | nil =>
      rw [trimR_cons, h]
      by_cases hwx : ws x <;> simp [hwx, trimR]
    | cons y ys =>
      rw [trimR_cons, h]
      rw [h] at ih
      simp only
      rw [trimR_cons, ih]

theorem trimL_trimR_comm (l : Str) : trimL (trimR l) = trimR (trimL l) := by
  induction l with
  | nil => rfl
  | cons x xs ih =>
    by_cases hwx : ws x
    · have hL : trimL (x :: xs) = trimL xs := by simp [trimL, List.dropWhile_cons, hwx]
      cases h : trimR xs with
      | nil =>
        have hRx : trimR (x :: xs) = [] := by rw [trimR_cons, h]; simp [hwx]
        rw [hRx, hL, ← ih, h]
      | cons y ys =>
        have hRx : trimR (x :: xs) = x :: y :: ys := by rw [trimR_cons, h]
        rw [hRx, hL, ← ih, h]
        simp [trimL, List.dropWhile_cons, hwx]
    · have hL : trimL (x :: xs) = x :: xs := by simp [trimL, List.dropWhile_cons, hwx]
      cases h : trimR xs with
      | nil =>
        have hRx : trimR (x :: xs) = [x] := by rw [trimR_cons, h]; simp [hwx]
        rw [hL, hRx]
        simp [trimL, List.dropWhile_cons, hwx]
      | cons y ys =>
        have hRx : trimR (x :: xs) = x :: y :: ys := by rw [trimR_cons, h]
        rw [hL, hRx]
        simp [trimL, List.dropWhile_cons, hwx]

theorem pyStrip_trimL (l : Str) : pyStrip (trimL l) = pyStrip l := by
  unfold pyStrip
  rw [trimL_idem]

theorem pyStrip_trimR (l : Str) : pyStrip (trimR l) = pyStrip l := by
  unfold pyStrip
  rw [trimL_trimR_comm, trimR_idem]

theorem splitOnChar_ne_nil (c : Char) (l : Str) : splitOnChar c l ≠ [] := by
  cases l with
  | nil => simp [splitOnChar]
  | cons x xs =>
    by_cases hx : x = c
    · simp [splitOnChar, hx]
    · cases h : splitOnChar c xs <;> simp [splitOnChar, hx, h]

theorem trimR_eq_nil (l : Str) (h : trimR l = []) : ∀ a ∈ l, ws a = true := by
  induction l with
  | nil => intro a ha; cases ha
  | cons x xs ih =>
    rw [trimR_cons] at h
    cases h2 : trimR xs with
    | nil =>
      rw [h2] at h
      by_cases hwx : ws x
      · intro a ha
        rcases List.mem_cons.mp ha with rfl | ha
        · exact hwx
        · exact ih h2 a ha
      · simp [hwx] at h
    | cons y ys =>
      rw [h2] at h
      simp at h
  
theorem split_no_sep (c : Char) (l : Str) (h : c ∉ l) : splitOnChar c l = [l] := by
  induction l with
  | nil => rfl
  | cons x xs ih =>
    have hx : ¬(x = c) := fun he => h (he ▸ List.mem_cons_self x xs)
    have hxs : c ∉ xs := fun hm => h (List.mem_cons_of_mem x hm)
    simp [splitOnChar, hx, ih hxs]

theorem split_trimL (c : Char) (l : Str) (hc : ws c = false) :
    splitOnChar c (trimL l) = modHead trimL (splitOnChar c l) := by
  induction l with
  | nil => rfl
  | cons x xs ih =>
    by_cases hwx : ws x
    · have hxc : ¬(x = c) := by
        intro he
        subst he
        rw [hwx] at hc
        cases hc
      have hL : trimL (x :: xs) = trimL xs := by simp [trimL, List.dropWhile_cons, hwx]
      obtain ⟨y, ys, hsx⟩ : ∃ y ys, splitOnChar c xs = y :: ys := by
        cases h : splitOnChar c xs with
        | nil => exact absurd h (splitOnChar_ne_nil c xs)
        | cons y ys => exact ⟨y, ys, rfl⟩
      have hRx : splitOnChar c (x :: xs) = (x :: y) :: ys := by
        simp [splitOnChar, hxc, hsx]
      rw [hL, ih, hsx, hRx]
      have : trimL (x :: y) = trimL y := by simp [trimL, List.dropWhile_cons, hwx]
      simp [modHead, this]
    · have hL : trimL (x :: xs) = x :: xs := by simp [trimL, List.dropWhile_cons, hwx]
      rw [hL]
      by_cases hxc : x = c
      · subst hxc
        simp [splitOnChar, modHead, trimL]
      · obtain ⟨y, ys, hsx⟩ : ∃ y ys, splitOnChar c xs = y :: ys := by
          cases h : splitOnChar c xs with
          | nil => exact absurd h (splitOnChar_ne_nil c xs)
          | cons y ys => exact ⟨y, ys, rfl⟩
        have hRx : splitOnChar c (x :: xs) = (x :: y) :: ys := by
          simp [splitOnChar, hxc, hsx]
        rw [hRx]
        have : trimL (x :: y) = x :: y := by simp [trimL, List.dropWhile_cons, hwx]
        simp [modHead, this]

theorem mem_of_mem_trimR (a : Char) (l : Str) (h : a ∈ trimR l) : a ∈ l := by
  induction l with
  | nil => simp [trimR] at h
  | cons x xs ih =>
    rw [trimR_cons] at h
    cases h2 : trimR xs with
    | nil =>
      rw [h2] at h
      by_cases hwx : ws x
      · simp [hwx] at h
      · simp [hwx] at h
        simp [h]
    | cons y ys =>
      rw [h2] at h
      rcases List.mem_cons.mp h with rfl | h
      · exact List.mem_cons_self a xs
      · rw [← h2] at h
        exact List.mem_cons_of_mem x (ih h)

theorem split_single_no_sep (c : Char) (l : Str) : ∀ seg, splitOnChar c l = [seg] →
    c ∉ l ∧ seg = l := by
  induction l with
  | nil =>
    intro seg h
    simp [splitOnChar] at h
    simp [h]
  | cons x xs ih =>
    intro seg h
    by_cases hxc : x = c
    · subst hxc
      simp [splitOnChar] at h
      exact absurd h.2 (splitOnChar_ne_nil x xs)
    · obtain ⟨h0, t0, hsx⟩ : ∃ h0 t0, splitOnChar c xs = h0 :: t0 := by
        cases hq : splitOnChar c xs with
        | nil => exact absurd hq (splitOnChar_ne_nil c xs)
        | cons h0 t0 => exact ⟨h0, t0, rfl⟩
      have h2 : splitOnChar c (x :: xs) = (x :: h0) :: t0 := by
        simp [splitOnChar, hxc, hsx]
      rw [h2] at h
      have ht0 : t0 = [] := by injection h with _ h3
      have hseg : seg = x :: h0 := by injection h with h3 _; exact h3.symm
      subst ht0
      obtain ⟨hnoc, rfl⟩ := ih h0 hsx
      refine ⟨?_, by simp [hseg]⟩
      intro hm
      rcases List.mem_cons.mp hm with hm | hm
      · exact hxc hm.symm
      · exact hnoc hm

theorem modLast_cons (f : Str → Str) (a : Str) (l : List Str) (h : l ≠ []) :
    modLast f (a :: l) = a :: modLast f l := by
  cases l with
  | nil => exact absurd rfl h
  | cons y ys => rfl

theorem split_trimR (c : Char) (l : Str) (hc : ws c = false) :
    splitOnChar c (trimR l) = modLast trimR (splitOnChar c l) := by
  induction l with
  | nil => rfl
  | cons x xs ih =>
    cases h : trimR xs with
    | nil =>
      have hallws := trimR_eq_nil xs h
      have hnoc : c ∉ xs := by
        intro hmem
        rw [hallws c hmem] at hc
        cases hc
      have hsxs : splitOnChar c xs = [xs] := split_no_sep c xs hnoc
      by_cases hwx : ws x
      · have hxc : ¬(x = c) := by
          intro he
          subst he
          rw [hwx] at hc
          cases hc
        have hRx : trimR (x :: xs) = [] := by rw [trimR_cons, h]; simp [hwx]
        have hSx : splitOnChar c (x :: xs) = [x :: xs] := by
          simp [splitOnChar, hxc, hsxs]
        rw [hRx, hSx]
        have : trimR (x :: xs) = [] := hRx
        simp [splitOnChar, modLast, this]
      · have hRx : trimR (x :: xs) = [x] := by rw [trimR_cons, h]; simp [hwx]
        by_cases hxc : x = c
        · rw [hRx]
          have h1 : splitOnChar c [x] = [[], []] := by simp [splitOnChar, hxc]
          have h2 : splitOnChar c (x :: xs) = [] :: [xs] := by simp [splitOnChar, hxc, hsxs]
          rw [h1, h2]
          simp [modLast, h]
        · rw [hRx]
          have h1 : splitOnChar c [x] = [[x]] := by simp [splitOnChar, hxc]
          have h2 : splitOnChar c (x :: xs) = [x :: xs] := by simp [splitOnChar, hxc, hsxs]
          rw [h1, h2]
          have : trimR (x :: xs) = [x] := hRx
          simp [modLast, this]
    | cons y ys =>
      have hRx : trimR (x :: xs) = x :: trimR xs := by rw [trimR_cons, h]
      by_cases hxc : x = c
      · have h1 : splitOnChar c (x :: trimR xs) = [] :: splitOnChar c (trimR xs) := by
          simp [splitOnChar, hxc]
        have h2 : splitOnChar c (x :: xs) = [] :: splitOnChar c xs := by
          simp [splitOnChar, hxc]
        rw [hRx, h1, h2, ih]
        rw [modLast_cons trimR [] (splitOnChar c xs) (splitOnChar_ne_nil c xs)]
      · obtain ⟨h0, t0, hsx⟩ : ∃ h0 t0, splitOnChar c xs = h0 :: t0 := by
          cases hq : splitOnChar c xs with
          | nil => exact absurd hq (splitOnChar_ne_nil c xs)
          | cons h0 t0 => exact ⟨h0, t0, rfl⟩
        have h2 : splitOnChar c (x :: xs) = (x :: h0) :: t0 := by
          simp [splitOnChar, hxc, hsx]
        cases t0 with
        | nil =>
          obtain ⟨hnoc, rfl⟩ := split_single_no_sep c xs h0 hsx
          have hnoc2 : c ∉ trimR h0 := fun hm => hnoc (mem_of_mem_trimR c h0 hm)
          have hLs : splitOnChar c (x :: trimR h0) = [x :: trimR h0] := by
            refine split_no_sep c _ ?_
            intro hm
            rcases List.mem_cons.mp hm with hm | hm
            · exact hxc hm.symm
            · exact hnoc2 hm
          rw [hRx, hLs, h2]
          simp [modLast, ← hRx]
        | cons y0 t0' =>
          obtain ⟨h1, t1, hsx1⟩ : ∃ h1 t1, splitOnChar c (trimR xs) = h1 :: t1 := by
            cases hq : splitOnChar c (trimR xs) with
            | nil => exact absurd hq (splitOnChar_ne_nil c (trimR xs))
            | cons h1 t1 => exact ⟨h1, t1, rfl⟩
          have h3 : splitOnChar c (x :: trimR xs) = (x :: h1) :: t1 := by
            simp [splitOnChar, hxc, hsx1]
          rw [hRx, h3, h2]
          rw [hsx1, hsx] at ih
          rw [modLast_cons trimR h0 (y0 :: t0') (by simp)] at ih
          have hh : h1 = h0 ∧ t1 = modLast trimR (y0 :: t0') := by
            have := ih
            exact ⟨by injection this, by injection this⟩
          rw [modLast_cons trimR (x :: h0) (y0 :: t0') (by simp)]
          rw [hh.1, hh.2]

theorem map_pyStrip_modHead (L : List Str) :
    (modHead trimL L).map pyStrip = L.map pyStrip := by
  cases L with
  | nil => rfl
  | cons a t => simp [modHead, pyStrip_trimL]

theorem map_pyStrip_modLast (L : List Str) :
    (modLast trimR L).map pyStrip = L.map pyStrip := by
  induction L with
  | nil => rfl
  | cons a t ih =>
    cases t with
    | nil => simp [modLast, pyStrip_trimR]
    | cons b t2 =>
      rw [modLast_cons trimR a (b :: t2) (by simp)]
      simp only [List.map_cons]
      rw [ih]
      simp

theorem map_pyStrip_split_strip (c : Char) (l : Str) (hc : ws c = false) :
    (splitOnChar c (pyStrip l)).map pyStrip = (splitOnChar c l).map pyStrip := by
  have h0 : pyStrip l = trimR (trimL l) := rfl
  rw [h0, split_trimR c (trimL l) hc, split_trimL c l hc, map_pyStrip_modLast,
    map_pyStrip_modHead]

theorem cookieFold_congr : ∀ (L1 L2 : List Str) (d : List (Str × Str)),
    L1.map pyStrip = L2.map pyStrip → cookieFold d L1 = cookieFold d L2 := by
  intro L1
  induction L1 with
  | nil =>
    intro L2 d h
    have : L2 = [] := by
      cases L2 with
      | nil => rfl
      | cons b t => simp at h
    subst this
    rfl
  | cons a t ih =>
    intro L2 d h
    cases L2 with
    | nil => simp at h
    | cons b t2 =>
      simp only [List.map_cons, List.cons.injEq] at h
      obtain ⟨hab, ht⟩ := h
      simp only [cookieFold]
      rw [hab]
      by_cases hcon : (pyStrip b).contains '=' = true
      · rw [if_pos hcon, if_pos hcon]
        exact ih t2 _ ht
      · rw [if_neg hcon, if_neg hcon]
        exact ih t2 d ht

theorem mem_split_mem (c : Char) : ∀ (l seg : Str) (a : Char),
    seg ∈ splitOnChar c l → a ∈ seg → a ∈ l := by
  intro l
  induction l with
  | nil =>
    intro seg a hseg ha
    simp [splitOnChar] at hseg
    subst hseg
    cases ha
  | cons x xs ih =>
    intro seg a hseg ha
    by_cases hxc : x = c
    · rw [hxc] at hseg
      simp only [splitOnChar, if_pos rfl] at hseg
      rcases List.mem_cons.mp hseg with rfl | hseg
      · cases ha
      · exact List.mem_cons_of_mem x (ih seg a hseg ha)
    · obtain ⟨h0, t0, hsx⟩ : ∃ h0 t0, splitOnChar c xs = h0 :: t0 := by
        cases hq : splitOnChar c xs with
        | nil => exact absurd hq (splitOnChar_ne_nil c xs)
        | cons h0 t0 => exact ⟨h0, t0, rfl⟩
      have h2 : splitOnChar c (x :: xs) = (x :: h0) :: t0 := by
        simp [splitOnChar, hxc, hsx]
      rw [h2] at hseg
      rcases List.mem_cons.mp hseg with rfl | hseg
      · rcases List.mem_cons.mp ha with rfl | ha
        · exact List.mem_cons_self a xs
        · exact List.mem_cons_of_mem x
            (ih h0 a (hsx ▸ List.mem_cons_self h0 t0) ha)
      · exact List.mem_cons_of_mem x
          (ih seg a (hsx ▸ List.mem_cons_of_mem h0 hseg) ha)

theorem mem_trimL (a : Char) (l : Str) (h : a ∈ l) (hws : ws a = false) :
    a ∈ trimL l := by
  induction l with
  | nil => cases h
  | cons x xs ih =>
    by_cases hwx : ws x
    · have hL : trimL (x :: xs) = trimL xs := by simp [trimL, List.dropWhile_cons, hwx]
      rw [hL]
      rcases List.mem_cons.mp h with rfl | h
      · rw [hwx] at hws; cases hws
      · exact ih h
    · have hL : trimL (x :: xs) = x :: xs := by simp [trimL, List.dropWhile_cons, hwx]
      rw [hL]
      exact h

theorem mem_trimR (a : Char) : ∀ (l : Str), a ∈ l → ws a = false → a ∈ trimR l := by
  intro l
  induction l with
  | nil => intro h _; cases h
  | cons x xs ih =>
    intro h hws
    rw [trimR_cons]
    cases h2 : trimR xs with
    | nil =>
      have hallws := trimR_eq_nil xs h2
      have hax : a = x := by
        rcases List.mem_cons.mp h with rfl | h
        · rfl
        · rw [hallws a h] at hws; cases hws
      subst hax
      simp [hws]
    | cons y ys =>
      rcases List.mem_cons.mp h with rfl | h
      · exact List.mem_cons_self a (y :: ys)
      · have := ih h hws
        rw [h2] at this
        exact List.mem_cons_of_mem x this

theorem mem_pyStrip (a : Char) (l : Str) (h : a ∈ l) (hws : ws a = false) :
    a ∈ pyStrip l :=
  mem_trimR a (trimL l) (mem_trimL a l h hws) hws

theorem dictInsert_ne_nil (d : List (Str × Str)) (k v : Str) :
    dictInsert d k v ≠ [] := by
  cases d with
  | nil => simp [dictInsert]
  | cons p t =>
    by_cases h : ((p :: t).any (fun q => q.1 == k)) = true
    · simp [dictInsert, h]
    · simp [dictInsert, h]

theorem cookieFold_ne_nil : ∀ (segs : List Str) (d : List (Str × Str)),
    (d ≠ [] ∨ ∃ seg, seg ∈ segs ∧ '=' ∈ pyStrip seg) → cookieFold d segs ≠ [] := by
  intro segs
  induction segs with
  | nil =>
    intro d h
    rcases h with h | ⟨seg, hseg, _⟩
    · exact h
    · cases hseg
  | cons s rest ih =>
    intro d h
    simp only [cookieFold]
    by_cases hcon : (pyStrip s).contains '=' = true
    · rw [if_pos hcon]
      exact ih _ (Or.inl (dictInsert_ne_nil d _ _))
    · rw [if_neg hcon]
      refine ih d ?_
      rcases h with h | ⟨seg, hseg, hin⟩
      · exact Or.inl h
      · rcases List.mem_cons.mp hseg with rfl | hseg
        · exact absurd (List.elem_iff.mpr hin) hcon
        · exact Or.inr ⟨seg, hseg, hin⟩

/-- C10: for every credential string containing at least one `;`-separated
segment with an `=`, the environment-variable cookie loader and the file
cookie loader parse the same string into the same key-value mapping — the
file loader's extra whole-string strip changes nothing, because each segment
is stripped anyway, and the env loader's emptiness guards cannot fire. -/
theorem claim_C10_cookie_loaders (s : Str)
    (h : ∃ seg, seg ∈ splitOnChar ';' s ∧ '=' ∈ seg) :
    load_cookies_from_env s = some (load_cookies_from_file s) := by
  obtain ⟨seg, hseg, heq⟩ := h
  have hmem : ('=' : Char) ∈ s := mem_split_mem ';' s seg '=' hseg heq
  have hsne : s ≠ [] := List.ne_nil_of_mem hmem
  have heqs : ('=' : Char) ∈ pyStrip seg := mem_pyStrip '=' seg heq (by decide)
  have hfoldne : cookieFold [] (splitOnChar ';' s) ≠ [] :=
    cookieFold_ne_nil (splitOnChar ';' s) [] (Or.inr ⟨seg, hseg, heqs⟩)
  have hveq : cookieFold [] (splitOnChar ';' (pyStrip s)) =
      cookieFold [] (splitOnChar ';' s) :=
    cookieFold_congr _ _ [] (map_pyStrip_split_strip ';' s (by decide))
  unfold load_cookies_from_env load_cookies_from_file
  rw [hveq]
  have h1 : s.isEmpty = false := by
    cases s with
    | nil => exact absurd rfl hsne
    | cons a t => rfl
  rw [h1]
  have h2 : (cookieFold [] (splitOnChar ';' s)).isEmpty = false := by
    cases hq : cookieFold [] (splitOnChar ';' s) with
    | nil => exact absurd hq hfoldne
    | cons a t => rfl
  simp only [Bool.false_eq_true, if_false, h2]

/-- A concrete credential string for the loader-equivalence scenario. -/
def cookieStrW : Str := " __Secure-1PSID=abc ; __Secure-1PSIDTS=x=y; junk ".toList

theorem claim_C10_witness :
    (∃ seg, seg ∈ splitOnChar ';' cookieStrW ∧ '=' ∈ seg) ∧
    load_cookies_from_env cookieStrW = some (load_cookies_from_file cookieStrW) := by
  have h : ∃ seg, seg ∈ splitOnChar ';' cookieStrW ∧ '=' ∈ seg := by decide
  exact ⟨h, claim_C10_cookie_loaders cookieStrW h⟩
